import Mathlib

/-!
Verification of the distribution-comparison and moment-matching core of
lightweight_mmm/utils.py: the discrete mass estimator `_pmf`, the continuous
density estimator `_estimate_pdf`, the four-way distance dispatcher
`distance_pior_posterior`, the half-normal conversion helpers and the
Beta moment-matching solver `get_beta_params_from_mu_sigma`.

Samples are embedded as lists of rationals (all concrete float inputs are
rational); real-valued computations (square roots, Gaussian kernels, the
root-finder) live in ℝ.  Python runtime failures that the code can hit
(ZeroDivisionError, UnboundLocalError, the ValueError raised by scipy
routines) are embedded as an explicit error type, and the silent IEEE NaN
produced by a 0/0 normalization is embedded as a distinguished NaN value.
-/

/-- Runtime failures reachable in the embedded code, each named after the
Python exception it models:
* `ksEmptyInput`: the ValueError scipy.stats.ks_2samp raises on empty data;
* `emptyReduce`: the ValueError a min/max reduction over an empty array raises;
* `zeroDivision`: Python ZeroDivisionError from dividing a float by 0.0;
* `unboundLocal`: UnboundLocalError from reading a never-assigned local;
* `rootNotBracketed`: the ValueError scipy brentq raises when f(a), f(b) have
  the same sign. -/
inductive PyErr where
  | ksEmptyInput
  | emptyReduce
  | zeroDivision
  | unboundLocal
  | rootNotBracketed
  deriving DecidableEq, Repr

/-- A float result: either an actual number or IEEE NaN (produced by 0/0 and
propagated by every arithmetic operation downstream). -/
inductive Val where
  | num (x : ℝ)
  | nan

/-! ## Discrete mass estimator (`_pmf`) and its grid (`jnp.unique`) -/

/-- jnp.unique of the concatenation: the sorted list of distinct values. -/
def uniqueSorted (l : List ℚ) : List ℚ :=
  l.toFinset.sort (· ≤ ·)

/-- One empirical CDF count `jnp.sum(p <= t)`. -/
def cdfAt (p : List ℚ) (t : ℚ) : ℚ :=
  ((p.countP fun s => decide (s ≤ t) : ℕ) : ℚ)

/-- The empirical CDF counts `[jnp.sum(p <= x[i]) for i in range(len(x))]`. -/
def p_cdf (p x : List ℚ) : List ℚ :=
  x.map (cdfAt p)

/-- jnp.diff: consecutive differences of a vector. -/
def diffList : List ℚ → List ℚ
  | a :: b :: rest => (b - a) :: diffList (b :: rest)
  | _ => []

/-- The unnormalized mass vector `np.concatenate([[p_cdf[0]], jnp.diff(p_cdf)])`.
On an empty grid the Python code indexes `p_cdf[0]` out of bounds; every use
site below has a non-empty grid, and the empty case is mapped to the empty
vector (whose later 0/0 normalization is the NaN path). -/
def rawPmf (p x : List ℚ) : List ℚ :=
  match p_cdf p x with
  | [] => []
  | c :: cs => c :: diffList (c :: cs)

/-- `_pmf`: the normalized mass vector `p_pmf / p_pmf.sum()`.  A zero total
makes the float code return an all-NaN vector (0/0); that outcome is embedded
as `none`. -/
def _pmf (p x : List ℚ) : Option (List ℚ) :=
  let w := rawPmf p x
  if w.sum = 0 then none else some (w.map fun a => a / w.sum)

/-- The mass vector as the float array the caller sees. -/
def pmfF (p x : List ℚ) : Option (List ℝ) :=
  (_pmf p x).map fun l => l.map fun a : ℚ => (a : ℝ)

/-! ## Continuous density estimator (`_estimate_pdf`) and its grid -/

/-- The standard normal density `stats.norm(c).pdf t`. -/
noncomputable def normpdf (c t : ℝ) : ℝ :=
  Real.exp (-((t - c) ^ 2) / 2) / Real.sqrt (2 * Real.pi)

/-- `arr.min()`: the minimum of a non-empty array (0 is never used: every
caller rejects the empty case first, as jnp raises on an empty reduction). -/
noncomputable def listMin : List ℝ → ℝ
  | [] => 0
  | [a] => a
  | a :: b :: rest => min a (listMin (b :: rest))

/-- `arr.max()`, analogously. -/
noncomputable def listMax : List ℝ → ℝ
  | [] => 0
  | [a] => a
  | a :: b :: rest => max a (listMax (b :: rest))

/-- `np.linspace a b n`: n points `a + (b - a) * i / (n - 1)`. -/
noncomputable def linspace (a b : ℝ) (n : ℕ) : List ℝ :=
  (List.range n).map fun i : ℕ => a + (b - a) * (i : ℝ) / ((n - 1 : ℕ) : ℝ)

/-- `_estimate_pdf`: `density = sum(stats.norm(xi).pdf(x) for xi in p)`,
normalized by its total.  As in `_pmf`, a zero total is the all-NaN float
vector, embedded as `none`. -/
noncomputable def _estimate_pdf (p x : List ℝ) : Option (List ℝ) :=
  let density := x.map fun t => (p.map fun c => normpdf c t).sum
  if density.sum = 0 then none else some (density.map fun d => d / density.sum)

/-! ## The four distance formulas -/

/-- The empirical CDF value used by the two-sample KS statistic. -/
def ecdfQ (p : List ℚ) (t : ℚ) : ℚ :=
  cdfAt p t / (p.length : ℚ)

/-- Modelled from the spec: the external two-sample Kolmogorov-Smirnov
statistic (scipy.stats.ks_2samp), the maximum absolute difference of the two
empirical CDFs over the pooled support; scipy raises a ValueError when either
sample is empty. -/
def ks_2samp (p q : List ℚ) : Except PyErr Val :=
  if p = [] ∨ q = [] then .error .ksEmptyInput
  else .ok (.num ((((uniqueSorted (p ++ q)).map fun t => |ecdfQ p t - ecdfQ q t|).foldr max 0 : ℚ) : ℝ))

/-- The Hellinger formula
`np.sqrt(jnp.sum((np.sqrt(p_pdf) - np.sqrt(q_pdf)) ** 2)) / np.sqrt(2)`. -/
noncomputable def hellingerDist (u v : List ℝ) : ℝ :=
  Real.sqrt (List.sum (List.zipWith (fun a b => (Real.sqrt a - Real.sqrt b) ^ 2) u v)) / Real.sqrt 2

/-- `scipy.special.rel_entr` restricted to the arguments arising here
(0 log 0 = 0 by convention). -/
noncomputable def relEntr (a b : ℝ) : ℝ :=
  if a = 0 then 0 else a * Real.log (a / b)

/-- Modelled from the spec: the external Jensen-Shannon distance
(scipy.spatial.distance.jensenshannon) between two normalized vectors:
the square root of half the sum of the two relative entropies against the
midpoint vector. -/
noncomputable def jensenshannon (u v : List ℝ) : ℝ :=
  let m := List.zipWith (fun a b => (a + b) / 2) u v
  Real.sqrt (((List.zipWith relEntr u m).sum + (List.zipWith relEntr v m).sum) / 2)

/-- The overlap-complement formula `1 - np.minimum(p_pdf, q_pdf).sum()`. -/
noncomputable def minOverlap (u v : List ℝ) : ℝ :=
  1 - (List.zipWith min u v).sum

/-- Applying a distance formula to the two estimator outputs: if either vector
is the all-NaN vector, every one of the three formulas propagates NaN to the
returned scalar. -/
noncomputable def applyPair (f : List ℝ → List ℝ → ℝ) :
    Option (List ℝ) → Option (List ℝ) → Val
  | some u, some v => .num (f u v)
  | _, _ => .nan

/-! ## The distance dispatcher -/

/-- The estimator stage shared by the Hellinger/JS/min branches: the discrete
branch builds `x = jnp.unique(jnp.concatenate((p, q)))` and applies `_pmf` to
each collection; the continuous branch computes the joint min and max (jnp
raises on an empty reduction), builds `np.linspace(minx, maxx, 100)` and
applies `_estimate_pdf` to each collection. -/
noncomputable def pdfVectors (p q : List ℚ) (discrete : Bool) :
    Except PyErr (Option (List ℝ) × Option (List ℝ)) :=
  if discrete then
    let x := uniqueSorted (p ++ q)
    .ok (pmfF p x, pmfF q x)
  else if p = [] ∨ q = [] then .error .emptyReduce
  else
    let pr := p.map fun s : ℚ => (s : ℝ)
    let qr := q.map fun s : ℚ => (s : ℝ)
    let minx := min (listMin pr) (listMin qr)
    let maxx := max (listMax pr) (listMax qr)
    let x := linspace minx maxx 100
    .ok (_estimate_pdf pr x, _estimate_pdf qr x)

/-- `distance_pior_posterior`.  The source dispatches
`if method == "KS": ... elif method in ["Hellinger", "JS", "min"]: <build
p_pdf, q_pdf>` and then `if method == "Hellinger": ... elif method == "JS":
... else: return 1 - np.minimum(p_pdf, q_pdf).sum()`.  A method outside the
four supported strings skips the estimator branch and falls into the trailing
`else`, where `p_pdf` was never assigned: Python raises UnboundLocalError,
embedded as `.error .unboundLocal`. -/
noncomputable def distance_pior_posterior (p q : List ℚ) (method : String)
    (discrete : Bool) : Except PyErr Val :=
  if method = "KS" then ks_2samp p q
  else if method = "Hellinger" ∨ method = "JS" ∨ method = "min" then
    match pdfVectors p q discrete with
    | .error e => .error e
    | .ok (pu, qu) =>
      if method = "Hellinger" then .ok (applyPair hellingerDist pu qu)
      else if method = "JS" then .ok (applyPair jensenshannon pu qu)
      else .ok (applyPair minOverlap pu qu)
  else .error .unboundLocal

/-! ## Half-normal conversion helpers -/

/-- `get_halfnormal_mean_from_scale`: scale * sqrt 2 / sqrt pi. -/
noncomputable def get_halfnormal_mean_from_scale (scale : ℝ) : ℝ :=
  scale * Real.sqrt 2 / Real.sqrt Real.pi

/-- `get_halfnormal_scale_from_mean`: mean * sqrt pi / sqrt 2. -/
noncomputable def get_halfnormal_scale_from_mean (mean : ℝ) : ℝ :=
  mean * Real.sqrt Real.pi / Real.sqrt 2

/-! ## Beta moment-matching solver -/

/-- The function `_f` whose root in the bracket is the secondary shape
parameter: x^2 + 4x + 5 + 2/x - 1/sigma^2. -/
noncomputable def _f (sigma x : ℝ) : ℝ :=
  x ^ 2 + 4 * x + 5 + 2 / x - 1 / sigma ^ 2

/-- Python float division: raises ZeroDivisionError on a zero denominator. -/
noncomputable def pydiv (a b : ℝ) : Except PyErr ℝ :=
  if b = 0 then .error .zeroDivision else .ok (a / b)

/-- `get_beta_params_from_mu_sigma`, parameterized by the external bracketed
root-finder (scipy.optimize.root_scalar with method brentq): first solve
`_f sigma` for b over the bracket, then recover `a = b / (1 / mu - 1)`, where
each float division can raise ZeroDivisionError.  There is no parameter
validation of mu or sigma anywhere in the body. -/
noncomputable def get_beta_params_from_mu_sigma
    (rootScalar : (ℝ → ℝ) → ℝ × ℝ → Except PyErr ℝ)
    (mu sigma : ℝ) (bracket : ℝ × ℝ := (0.5, 100)) : Except PyErr (ℝ × ℝ) := do
  let b ← rootScalar ( _f sigma) bracket
  let invMu ← pydiv 1 mu
  let a ← pydiv b (invMu - 1)
  return (a, b)

/-- Modelled from the spec: the contract of the external bracketed root-finder
(Brent's method): on a continuous function whose values at the bracket
endpoints have opposite signs it returns a root inside the bracket, and when
there is no sign change it raises the root-not-bracketed ValueError. -/
structure BrentqSpec (R : (ℝ → ℝ) → ℝ × ℝ → Except PyErr ℝ) : Prop where
  finds_root : ∀ g lo hi, lo ≤ hi → ContinuousOn g (Set.Icc lo hi) →
    g lo * g hi < 0 → ∃ b, lo ≤ b ∧ b ≤ hi ∧ g b = 0 ∧ R g (lo, hi) = .ok b
  no_bracket : ∀ g lo hi, 0 ≤ g lo * g hi →
    R g (lo, hi) = .error .rootNotBracketed

open Classical in
/-- A root-finder realizing `BrentqSpec`: pick any root in the bracket when
one exists together with a sign change, otherwise report the bracket
failure. -/
noncomputable def brentqModel (g : ℝ → ℝ) (br : ℝ × ℝ) : Except PyErr ℝ :=
  if h : g br.1 * g br.2 < 0 ∧ ∃ b, br.1 ≤ b ∧ b ≤ br.2 ∧ g b = 0 then
    .ok h.2.choose
  else .error .rootNotBracketed

/-! ## Helper lemmas: the root-finder model and continuity of the target -/

theorem brentqModel_isBrentq : BrentqSpec brentqModel := by
  constructor
  · intro g lo hi hle hcont hsign
    have hex : ∃ b, lo ≤ b ∧ b ≤ hi ∧ g b = 0 := by
      rcases mul_neg_iff.mp hsign with ⟨hpos, hneg⟩ | ⟨hneg, hpos⟩
      · have h0 : (0 : ℝ) ∈ Set.Icc (g hi) (g lo) := ⟨le_of_lt hneg, le_of_lt hpos⟩
        obtain ⟨b, hb, hgb⟩ := intermediate_value_Icc' hle hcont h0
        exact ⟨b, hb.1, hb.2, hgb⟩
      · have h0 : (0 : ℝ) ∈ Set.Icc (g lo) (g hi) := ⟨le_of_lt hneg, le_of_lt hpos⟩
        obtain ⟨b, hb, hgb⟩ := intermediate_value_Icc hle hcont h0
        exact ⟨b, hb.1, hb.2, hgb⟩
    have hcond : g lo * g hi < 0 ∧ ∃ b, lo ≤ b ∧ b ≤ hi ∧ g b = 0 := ⟨hsign, hex⟩
    exact ⟨hcond.2.choose, hcond.2.choose_spec.1, hcond.2.choose_spec.2.1,
      hcond.2.choose_spec.2.2, dif_pos hcond⟩
  · intro g lo hi hge
    have hnot : ¬(g lo * g hi < 0 ∧ ∃ b, lo ≤ b ∧ b ≤ hi ∧ g b = 0) :=
      fun h => absurd h.1 (not_lt.mpr hge)
    exact dif_neg hnot

theorem f_continuousOn (sigma lo hi : ℝ) (hlo : 0 < lo) :
    ContinuousOn ( _f sigma) (Set.Icc lo hi) := by
  have hne : ∀ x ∈ Set.Icc lo hi, x ≠ (0 : ℝ) :=
    fun x hx => ne_of_gt (lt_of_lt_of_le hlo hx.1)
  have h1 : Continuous fun x : ℝ => x ^ 2 + 4 * x + 5 := by continuity
  have h2 : ContinuousOn (fun x : ℝ => 2 / x) (Set.Icc lo hi) :=
    ContinuousOn.div continuousOn_const continuousOn_id hne
  exact (h1.continuousOn.add h2).sub continuousOn_const

/-! ## Claims C9, C10, C3, C6 -/

/-- C9: the two half-normal conversion helpers are mutually inverse: composing
mean-from-scale with scale-from-mean (in either order) is the identity. -/
theorem halfnormal_helpers_inverse (s m : ℝ) :
    get_halfnormal_scale_from_mean (get_halfnormal_mean_from_scale s) = s ∧
    get_halfnormal_mean_from_scale (get_halfnormal_scale_from_mean m) = m := by
  have h2 : Real.sqrt 2 ≠ 0 := ne_of_gt (Real.sqrt_pos.mpr (by norm_num))
  have hpi : Real.sqrt Real.pi ≠ 0 := ne_of_gt (Real.sqrt_pos.mpr Real.pi_pos)
  constructor <;>
  · simp only [get_halfnormal_mean_from_scale, get_halfnormal_scale_from_mean]
    field_simp

/-- C10: the moment-matching solver depends on sigma only through sigma
squared, so negating sigma changes nothing: for every root-finder, mu, sigma
and bracket the two calls return identical results. -/
theorem beta_solver_even_in_sigma (R : (ℝ → ℝ) → ℝ × ℝ → Except PyErr ℝ)
    (mu sigma : ℝ) (bracket : ℝ × ℝ) :
    get_beta_params_from_mu_sigma R mu (-sigma) bracket =
      get_beta_params_from_mu_sigma R mu sigma bracket := by
  have hf : _f (-sigma) = _f sigma := by
    funext x
    simp [_f, neg_sq]
  simp [get_beta_params_from_mu_sigma, hf]

/-- C3: for mu strictly between 0 and 1 and a positive bracket, when the
target function changes sign over the bracket the solver returns (a, b) with
b a root of the target inside the bracket and a = b / (1 / mu - 1), both
strictly positive; when there is no sign change it reports the
root-not-bracketed error. -/
theorem beta_solver_contract (R : (ℝ → ℝ) → ℝ × ℝ → Except PyErr ℝ)
    (hR : BrentqSpec R) (mu sigma lo hi : ℝ)
    (hmu0 : 0 < mu) (hmu1 : mu < 1) (hlo : 0 < lo) (hle : lo ≤ hi) :
    ( _f sigma lo * _f sigma hi < 0 →
      ∃ a b, get_beta_params_from_mu_sigma R mu sigma (lo, hi) = .ok (a, b) ∧
        lo ≤ b ∧ b ≤ hi ∧ _f sigma b = 0 ∧ a = b / (1 / mu - 1) ∧
        0 < a ∧ 0 < b) ∧
    (0 ≤ _f sigma lo * _f sigma hi →
      get_beta_params_from_mu_sigma R mu sigma (lo, hi) =
        .error .rootNotBracketed) := by
  have hmune : mu ≠ 0 := ne_of_gt hmu0
  have hdpos : 0 < 1 / mu - 1 := sub_pos.mpr (one_lt_one_div hmu0 hmu1)
  have hd : 1 / mu - 1 ≠ 0 := ne_of_gt hdpos
  have hdinv : mu⁻¹ - 1 ≠ 0 := by rwa [one_div] at hd
  constructor
  · intro hsign
    obtain ⟨b, hb1, hb2, hb0, hok⟩ :=
      hR.finds_root ( _f sigma) lo hi hle (f_continuousOn sigma lo hi hlo) hsign
    have hbpos : 0 < b := lt_of_lt_of_le hlo hb1
    refine ⟨b / (1 / mu - 1), b, ?_, hb1, hb2, hb0, rfl, div_pos hbpos hdpos, hbpos⟩
    simp [get_beta_params_from_mu_sigma, hok, pydiv, hmune, hd, hdinv, bind,
      Except.bind, Functor.map, Except.map, pure, Except.pure]
  · intro hge
    have herr := hR.no_bracket ( _f sigma) lo hi hge
    simp [get_beta_params_from_mu_sigma, herr, bind, Except.bind]

theorem beta_solver_contract_witness :
    BrentqSpec brentqModel ∧ (0 : ℝ) < 1 / 2 ∧ (1 / 2 : ℝ) < 1 ∧
    (0 : ℝ) < 1 / 2 ∧ (1 / 2 : ℝ) ≤ 100 ∧
    _f (1 / 10) (1 / 2) * _f (1 / 10) 100 < 0 ∧
    (( _f (1 / 10) (1 / 2) * _f (1 / 10) 100 < 0 →
      ∃ a b, get_beta_params_from_mu_sigma brentqModel (1 / 2) (1 / 10)
          (1 / 2, 100) = .ok (a, b) ∧
        1 / 2 ≤ b ∧ b ≤ 100 ∧ _f (1 / 10) b = 0 ∧
        a = b / (1 / (1 / 2) - 1) ∧ 0 < a ∧ 0 < b) ∧
    (0 ≤ _f (1 / 10) (1 / 2) * _f (1 / 10) 100 →
      get_beta_params_from_mu_sigma brentqModel (1 / 2) (1 / 10) (1 / 2, 100) =
        .error .rootNotBracketed)) :=
  ⟨brentqModel_isBrentq, by norm_num, by norm_num, by norm_num, by norm_num,
    by norm_num [_f],
    beta_solver_contract brentqModel brentqModel_isBrentq (1 / 2) (1 / 10)
      (1 / 2) 100 (by norm_num) (by norm_num) (by norm_num) (by norm_num)⟩

/-- C6 counterexample: at mu = 0 (with a bracket over which the target does
change sign) the solver does not reject the parameter upfront; the root-finder
runs and the recovery of a then divides by zero, the Python
ZeroDivisionError. -/
theorem beta_solver_mu_zero_cex :
    get_beta_params_from_mu_sigma brentqModel 0 (1 / 10) (1 / 2, 100) =
      .error .zeroDivision := by
  obtain ⟨b, _, _, _, hok⟩ :=
    brentqModel_isBrentq.finds_root ( _f (1 / 10)) (1 / 2) 100 (by norm_num)
      (f_continuousOn (1 / 10) (1 / 2) 100 (by norm_num)) (by norm_num [_f])
  simp only [get_beta_params_from_mu_sigma, bind, Except.bind]
  rw [hok]
  simp [pydiv, bind, Except.bind]

/-- C6 amended: the solver performs no parameter validation: whenever the
root-finding step succeeds and mu is 0 or 1, the recovery of a raises a
division-by-zero error (after root-finding), not a parameter-out-of-range
rejection. -/
theorem beta_solver_no_mu_validation
    (R : (ℝ → ℝ) → ℝ × ℝ → Except PyErr ℝ) (mu sigma : ℝ) (bracket : ℝ × ℝ)
    (b : ℝ) (hok : R ( _f sigma) bracket = .ok b) (hmu : mu = 0 ∨ mu = 1) :
    get_beta_params_from_mu_sigma R mu sigma bracket =
      .error .zeroDivision := by
  rcases hmu with h | h <;> subst h <;>
    simp [get_beta_params_from_mu_sigma, hok, pydiv, bind, Except.bind, Functor.map, Except.map]

theorem beta_solver_no_mu_validation_witness :
    (∃ b, brentqModel ( _f (1 / 10)) (1 / 2, 100) = .ok b) ∧
    ((0 : ℝ) = 0 ∨ (0 : ℝ) = 1) ∧
    get_beta_params_from_mu_sigma brentqModel 0 (1 / 10) (1 / 2, 100) =
      .error .zeroDivision := by
  obtain ⟨b, _, _, _, hok⟩ :=
    brentqModel_isBrentq.finds_root ( _f (1 / 10)) (1 / 2) 100 (by norm_num)
      (f_continuousOn (1 / 10) (1 / 2) 100 (by norm_num)) (by norm_num [_f])
  exact ⟨⟨b, hok⟩, Or.inl rfl,
    beta_solver_no_mu_validation brentqModel 0 (1 / 10) (1 / 2, 100) b hok
      (Or.inl rfl)⟩

/-! ## Helper lemmas for the discrete mass estimator -/

theorem rawPmf_nil (p : List ℚ) : rawPmf p [] = [] := rfl

theorem rawPmf_cons (p : List ℚ) (t : ℚ) (ts : List ℚ) :
    rawPmf p (t :: ts) =
      cdfAt p t :: diffList (cdfAt p t :: ts.map (cdfAt p)) := rfl

theorem sum_map_div {K : Type} [DivisionRing K] (l : List K) (c : K) :
    (l.map fun a => a / c).sum = l.sum / c := by
  induction l with
  | nil => simp
  | cons a t ih => simp [ih, add_div]

theorem sum_cons_diffList : ∀ (cs : List ℚ) (c : ℚ),
    (c :: diffList (c :: cs)).sum = cs.getLastD c
  | [], c => by simp [diffList]
  | d :: ds, c => by
    have ih := sum_cons_diffList ds d
    simp only [diffList, List.sum_cons, List.getLastD_cons] at ih ⊢
    linarith

theorem length_diffList : ∀ l : List ℚ, (diffList l).length = l.length - 1
  | [] => rfl
  | [_] => rfl
  | a :: b :: rest => by
    have ih := length_diffList (b :: rest)
    simp only [diffList, List.length_cons] at ih ⊢
    omega

theorem getLastD_map (f : ℚ → ℚ) : ∀ (l : List ℚ) (a : ℚ),
    (l.map f).getLastD (f a) = f (l.getLastD a)
  | [], _ => rfl
  | b :: bs, a => by
    simp only [List.map_cons, List.getLastD_cons]
    exact getLastD_map f bs b

theorem sorted_le_getLastD : ∀ (l : List ℚ) (t a : ℚ),
    (t :: l).Sorted (· ≤ ·) → a ∈ t :: l → a ≤ l.getLastD t
  | [], t, a, _, ha => by
    simp only [List.mem_singleton] at ha
    simp [ha]
  | b :: bs, t, a, hs, ha => by
    have hs' : (b :: bs).Sorted (· ≤ ·) := hs.of_cons
    rw [List.getLastD_cons]
    rcases List.mem_cons.mp ha with rfl | ha'
    · have htb : a ≤ b := (List.sorted_cons.mp hs).1 b (List.mem_cons_self b bs)
      have hb := sorted_le_getLastD bs b b hs' (List.mem_cons_self b bs)
      exact le_trans htb hb
    · exact sorted_le_getLastD bs b a hs' ha'

theorem cdfAt_nonneg (p : List ℚ) (t : ℚ) : 0 ≤ cdfAt p t :=
  Nat.cast_nonneg _

theorem cdfAt_mono (p : List ℚ) {t u : ℚ} (h : t ≤ u) :
    cdfAt p t ≤ cdfAt p u := by
  have hc : (p.countP fun s => decide (s ≤ t)) ≤ p.countP fun s => decide (s ≤ u) :=
    List.countP_mono_left fun a _ ha =>
      decide_eq_true (le_trans (of_decide_eq_true ha) h)
  unfold cdfAt
  exact_mod_cast hc

theorem diffList_cdf_nonneg (p : List ℚ) :
    ∀ (t : ℚ) (ts : List ℚ), (t :: ts).Sorted (· ≤ ·) →
      ∀ e ∈ diffList (cdfAt p t :: ts.map (cdfAt p)), 0 ≤ e
  | _, [], _, e, he => by simp [diffList] at he
  | t, u :: us, hs, e, he => by
    have htu : t ≤ u := (List.sorted_cons.mp hs).1 u (by simp)
    have hs' : (u :: us).Sorted (· ≤ ·) := hs.of_cons
    simp only [List.map_cons, diffList] at he
    rcases List.mem_cons.mp he with rfl | he'
    · exact sub_nonneg.mpr (cdfAt_mono p htu)
    · exact diffList_cdf_nonneg p u us hs' e he'

theorem rawPmf_nonneg (p : List ℚ) (t : ℚ) (ts : List ℚ)
    (hx : (t :: ts).Sorted (· ≤ ·)) : ∀ e ∈ rawPmf p (t :: ts), 0 ≤ e := by
  intro e he
  rw [rawPmf_cons] at he
  rcases List.mem_cons.mp he with rfl | he'
  · exact cdfAt_nonneg p t
  · exact diffList_cdf_nonneg p t ts hx e he'

theorem rawPmf_sum (p : List ℚ) (t : ℚ) (ts : List ℚ) :
    (rawPmf p (t :: ts)).sum = cdfAt p (ts.getLastD t) := by
  rw [rawPmf_cons, sum_cons_diffList (ts.map (cdfAt p)) (cdfAt p t),
    getLastD_map (cdfAt p) ts t]

theorem rawPmf_length (p : List ℚ) (t : ℚ) (ts : List ℚ) :
    (rawPmf p (t :: ts)).length = ts.length + 1 := by
  rw [rawPmf_cons]
  simp [length_diffList]

theorem pmf_some (p : List ℚ) (t : ℚ) (ts : List ℚ)
    (hx : (t :: ts).Sorted (· ≤ ·)) (hmem : ∀ s ∈ p, s ∈ t :: ts)
    (hp : p ≠ []) :
    (rawPmf p (t :: ts)).sum = (p.length : ℚ) ∧
    ∃ v, _pmf p (t :: ts) = some v ∧ v.sum = 1 ∧ (∀ e ∈ v, 0 ≤ e) ∧
      v.length = ts.length + 1 := by
  have hsum : (rawPmf p (t :: ts)).sum = (p.length : ℚ) := by
    rw [rawPmf_sum]
    unfold cdfAt
    norm_cast
    refine List.countP_eq_length.mpr fun a ha => ?_
    exact decide_eq_true (sorted_le_getLastD ts t a hx (hmem a ha))
  have hpos : (0 : ℚ) < (p.length : ℚ) := by
    exact_mod_cast List.length_pos.mpr hp
  have hne : (rawPmf p (t :: ts)).sum ≠ 0 := by
    rw [hsum]; exact ne_of_gt hpos
  refine ⟨hsum, (rawPmf p (t :: ts)).map fun a => a / (rawPmf p (t :: ts)).sum,
    ?_, ?_, ?_, ?_⟩
  · simp [_pmf, hne]
  · rw [sum_map_div, div_self hne]
  · intro e he
    obtain ⟨a, ha, rfl⟩ := List.mem_map.mp he
    exact div_nonneg (rawPmf_nonneg p t ts hx a ha) (hsum ▸ le_of_lt hpos)
  · simp [rawPmf_length]

theorem pmf_empty (x : List ℚ) : _pmf [] x = none := by
  cases x with
  | nil => simp [_pmf, rawPmf_nil]
  | cons t ts => simp [_pmf, rawPmf_sum, cdfAt]

theorem uniqueSorted_sorted_le (l : List ℚ) :
    (uniqueSorted l).Sorted (· ≤ ·) :=
  Finset.sort_sorted _ _

theorem uniqueSorted_mem (l : List ℚ) (a : ℚ) :
    a ∈ uniqueSorted l ↔ a ∈ l := by
  simp [uniqueSorted, Finset.mem_sort]

theorem applyPair_none_left (f : List ℝ → List ℝ → ℝ) (y : Option (List ℝ)) :
    applyPair f none y = .nan := by
  cases y <;> rfl

theorem applyPair_none_right (f : List ℝ → List ℝ → ℝ) (y : Option (List ℝ)) :
    applyPair f y none = .nan := by
  cases y <;> rfl

/-! ## Claims C1, C2, C5 -/

/-- C1: for non-empty sample collections the discrete estimator's shared grid
is the sorted list of the distinct values of both collections, and each
collection's mass vector is the normalized consecutive-difference of its
empirical CDF over that grid: the unnormalized total is exactly the sample
count (so the normalizing division never divides by zero, also when all
samples of a collection are equal), and the normalized vector sums to 1 with
every entry nonnegative. -/
theorem pmf_mass_function (p q : List ℚ) (hp : p ≠ []) (hq : q ≠ []) :
    (uniqueSorted (p ++ q)).Sorted (· < ·) ∧
    (∀ a, a ∈ uniqueSorted (p ++ q) ↔ a ∈ p ∨ a ∈ q) ∧
    (rawPmf p (uniqueSorted (p ++ q))).sum = (p.length : ℚ) ∧
    (rawPmf q (uniqueSorted (p ++ q))).sum = (q.length : ℚ) ∧
    (∃ v, _pmf p (uniqueSorted (p ++ q)) = some v ∧ v.sum = 1 ∧
      ∀ e ∈ v, 0 ≤ e) ∧
    (∃ w, _pmf q (uniqueSorted (p ++ q)) = some w ∧ w.sum = 1 ∧
      ∀ e ∈ w, 0 ≤ e) := by
  have hmemx : ∀ a, a ∈ uniqueSorted (p ++ q) ↔ a ∈ p ∨ a ∈ q := fun a => by
    rw [uniqueSorted_mem]
    exact List.mem_append
  have hsorted := uniqueSorted_sorted_le (p ++ q)
  have hxne : uniqueSorted (p ++ q) ≠ [] := by
    obtain ⟨s, hs⟩ := List.exists_mem_of_ne_nil p hp
    exact List.ne_nil_of_mem ((hmemx s).mpr (Or.inl hs))
  obtain ⟨t, ts, hxeq⟩ := List.exists_cons_of_ne_nil hxne
  rw [hxeq] at hsorted
  obtain ⟨hsump, v, hv1, hv2, hv3, _⟩ :=
    pmf_some p t ts hsorted (fun s hs => hxeq ▸ (hmemx s).mpr (Or.inl hs)) hp
  obtain ⟨hsumq, w, hw1, hw2, hw3, _⟩ :=
    pmf_some q t ts hsorted (fun s hs => hxeq ▸ (hmemx s).mpr (Or.inr hs)) hq
  rw [hxeq]
  exact ⟨hxeq ▸ Finset.sort_sorted_lt _, fun a => hxeq ▸ hmemx a, hsump, hsumq,
    ⟨v, hv1, hv2, hv3⟩, ⟨w, hw1, hw2, hw3⟩⟩

theorem pmf_mass_function_witness :
    ([(1 : ℚ), 1] ≠ [] ∧ [(2 : ℚ)] ≠ []) ∧
    ((uniqueSorted ([(1 : ℚ), 1] ++ [(2 : ℚ)])).Sorted (· < ·) ∧
    (∀ a, a ∈ uniqueSorted ([(1 : ℚ), 1] ++ [(2 : ℚ)]) ↔
      a ∈ [(1 : ℚ), 1] ∨ a ∈ [(2 : ℚ)]) ∧
    (rawPmf [(1 : ℚ), 1] (uniqueSorted ([(1 : ℚ), 1] ++ [(2 : ℚ)]))).sum =
      (([(1 : ℚ), 1].length : ℕ) : ℚ) ∧
    (rawPmf [(2 : ℚ)] (uniqueSorted ([(1 : ℚ), 1] ++ [(2 : ℚ)]))).sum =
      (([(2 : ℚ)].length : ℕ) : ℚ) ∧
    (∃ v, _pmf [(1 : ℚ), 1] (uniqueSorted ([(1 : ℚ), 1] ++ [(2 : ℚ)])) =
      some v ∧ v.sum = 1 ∧ ∀ e ∈ v, 0 ≤ e) ∧
    (∃ w, _pmf [(2 : ℚ)] (uniqueSorted ([(1 : ℚ), 1] ++ [(2 : ℚ)])) =
      some w ∧ w.sum = 1 ∧ ∀ e ∈ w, 0 ≤ e)) :=
  ⟨⟨by decide, by decide⟩,
    pmf_mass_function [(1 : ℚ), 1] [(2 : ℚ)] (by decide) (by decide)⟩

/-- C2 counterexample: with the discrete flag and the Hellinger method, an
empty first collection does not raise an empty-input error: the 0/0 mass
normalization produces NaN and the function silently returns it. -/
theorem distance_empty_input_cex :
    distance_pior_posterior [] [0] "Hellinger" true = .ok .nan := by
  simp [distance_pior_posterior, pdfVectors, pmfF, pmf_empty,
    applyPair_none_left]

/-- C2 amended: the distance function performs no empty-input validation: for
the three estimator-based methods with the discrete flag, an empty collection
on either side (the other non-empty) leads to a silently returned NaN value
rather than an explicit empty-input error. -/
theorem distance_empty_discrete_nan (q : List ℚ) (hq : q ≠ [])
    (method : String)
    (hm : method = "Hellinger" ∨ method = "JS" ∨ method = "min") :
    distance_pior_posterior [] q method true = .ok .nan ∧
    distance_pior_posterior q [] method true = .ok .nan := by
  rcases hm with rfl | rfl | rfl <;>
    exact ⟨by simp [distance_pior_posterior, pdfVectors, pmfF, pmf_empty,
        applyPair_none_left],
      by simp [distance_pior_posterior, pdfVectors, pmfF, pmf_empty,
        applyPair_none_right]⟩

theorem distance_empty_discrete_nan_witness :
    ([(0 : ℚ)] ≠ [] ∧
      ("JS" = "Hellinger" ∨ "JS" = "JS" ∨ "JS" = "min")) ∧
    distance_pior_posterior [] [(0 : ℚ)] "JS" true = .ok .nan ∧
    distance_pior_posterior [(0 : ℚ)] [] "JS" true = .ok .nan :=
  ⟨⟨by decide, by decide⟩,
    distance_empty_discrete_nan [(0 : ℚ)] (by decide) "JS" (by decide)⟩

/-- C5 counterexample: the invalid method "bogus" does not produce a
purpose-built invalid-method error: the estimator branch is skipped entirely
and the final branch reads the never-assigned probability vector, so the call
fails with an UnboundLocalError. -/
theorem distance_invalid_method_cex :
    distance_pior_posterior [0] [1] "bogus" true = .error .unboundLocal := by
  simp [distance_pior_posterior]

/-- C5 amended: for any method outside the four supported strings, with any
inputs and either flag, the call errors rather than returning a number; the
error is the UnboundLocalError from the trailing branch reading the unassigned
probability vector (not a purpose-built invalid-method error; the estimators
are never constructed for such a method). -/
theorem distance_invalid_method_errors (p q : List ℚ) (d : Bool)
    (method : String) (h1 : method ≠ "KS") (h2 : method ≠ "Hellinger")
    (h3 : method ≠ "JS") (h4 : method ≠ "min") :
    distance_pior_posterior p q method d = .error .unboundLocal := by
  simp [distance_pior_posterior, h1, h2, h3, h4]

theorem distance_invalid_method_errors_witness :
    ("bogus" ≠ "KS" ∧ "bogus" ≠ "Hellinger" ∧ "bogus" ≠ "JS" ∧
      "bogus" ≠ "min") ∧
    distance_pior_posterior [] [] "bogus" false = .error .unboundLocal :=
  ⟨⟨by decide, by decide, by decide, by decide⟩,
    distance_invalid_method_errors [] [] false "bogus" (by decide) (by decide)
      (by decide) (by decide)⟩

/-! ## Helper lemmas for the continuous density estimator -/

theorem normpdf_pos (c t : ℝ) : 0 < normpdf c t :=
  div_pos (Real.exp_pos _) (Real.sqrt_pos.mpr (by positivity))

theorem listMin_le : ∀ (l : List ℝ) (a : ℝ), a ∈ l → listMin l ≤ a
  | [], a, ha => by simp at ha
  | [b], a, ha => by
    simp only [List.mem_singleton] at ha
    simp [listMin, ha]
  | b :: c :: rest, a, ha => by
    simp only [listMin]
    rcases List.mem_cons.mp ha with rfl | ha'
    · exact min_le_left _ _
    · exact le_trans (min_le_right _ _) (listMin_le (c :: rest) a ha')

theorem le_listMax : ∀ (l : List ℝ) (a : ℝ), a ∈ l → a ≤ listMax l
  | [], a, ha => by simp at ha
  | [b], a, ha => by
    simp only [List.mem_singleton] at ha
    simp [listMax, ha]
  | b :: c :: rest, a, ha => by
    simp only [listMax]
    rcases List.mem_cons.mp ha with rfl | ha'
    · exact le_max_left _ _
    · exact le_trans (le_listMax (c :: rest) a ha') (le_max_right _ _)

theorem linspace_length (a b : ℝ) (n : ℕ) : (linspace a b n).length = n := by
  rw [linspace, List.length_map, List.length_range]

theorem linspace_getD (a b : ℝ) (i : ℕ) (hi : i < 100) :
    (linspace a b 100).getD i 0 = a + (b - a) * i / 99 := by
  rw [linspace, List.getD_eq_getElem?_getD, List.getElem?_map,
    List.getElem?_range hi]
  norm_num

theorem estimate_pdf_some (p x : List ℝ) (hp : p ≠ []) (hx : x ≠ []) :
    ∃ v, _estimate_pdf p x = some v ∧ v.length = x.length ∧ v.sum = 1 ∧
      ∀ e ∈ v, 0 ≤ e := by
  have hpos : ∀ d ∈ x.map fun t => (p.map fun c => normpdf c t).sum, 0 < d := by
    intro d hdm
    obtain ⟨t, _, rfl⟩ := List.mem_map.mp hdm
    refine List.sum_pos _ (fun y hy => ?_) (by simp [hp])
    obtain ⟨c, _, rfl⟩ := List.mem_map.mp hy
    exact normpdf_pos c t
  have hsum : 0 < (x.map fun t => (p.map fun c => normpdf c t).sum).sum :=
    List.sum_pos _ hpos (by simp [hx])
  refine ⟨(x.map fun t => (p.map fun c => normpdf c t).sum).map fun d =>
    d / (x.map fun t => (p.map fun c => normpdf c t).sum).sum, ?_, ?_, ?_, ?_⟩
  · simp [_estimate_pdf, ne_of_gt hsum]
  · simp
  · rw [sum_map_div, div_self (ne_of_gt hsum)]
  · intro e he
    obtain ⟨d, hdm, rfl⟩ := List.mem_map.mp he
    exact div_nonneg (le_of_lt (hpos d hdm)) (le_of_lt hsum)

/-! ## Claim C4 -/

/-- C4: for non-empty collections the continuous estimator grid is 100 equally
spaced points running from the joint minimum to the joint maximum of the two
collections, and each collection's density estimate over it (the normalized
sum of unit-variance Gaussian kernels centered at the samples) has exactly 100
entries, sums to 1 and is entrywise nonnegative. -/
theorem estimate_pdf_contract (p q : List ℝ) (hp : p ≠ []) (hq : q ≠ [])
    (minx maxx : ℝ) (x : List ℝ)
    (hmin : minx = min (listMin p) (listMin q))
    (hmax : maxx = max (listMax p) (listMax q))
    (hx : x = linspace minx maxx 100) :
    x.length = 100 ∧
    (∀ i, i < 100 → x.getD i 0 = minx + (maxx - minx) * i / 99) ∧
    x.getD 0 0 = minx ∧ x.getD 99 0 = maxx ∧
    (∀ a ∈ p, minx ≤ a ∧ a ≤ maxx) ∧ (∀ a ∈ q, minx ≤ a ∧ a ≤ maxx) ∧
    (∃ v, _estimate_pdf p x = some v ∧ v.length = 100 ∧ v.sum = 1 ∧
      ∀ e ∈ v, 0 ≤ e) ∧
    (∃ w, _estimate_pdf q x = some w ∧ w.length = 100 ∧ w.sum = 1 ∧
      ∀ e ∈ w, 0 ≤ e) := by
  subst hmin hmax hx
  have hlen := linspace_length (min (listMin p) (listMin q))
    (max (listMax p) (listMax q)) 100
  have hxne : linspace (min (listMin p) (listMin q))
      (max (listMax p) (listMax q)) 100 ≠ [] := by
    intro h
    rw [h] at hlen
    simp at hlen
  obtain ⟨v, hv1, hv2, hv3, hv4⟩ := estimate_pdf_some p _ hp hxne
  obtain ⟨w, hw1, hw2, hw3, hw4⟩ := estimate_pdf_some q _ hq hxne
  refine ⟨hlen, fun i hi => linspace_getD _ _ i hi, ?_, ?_, ?_, ?_,
    ⟨v, hv1, hv2.trans hlen, hv3, hv4⟩, ⟨w, hw1, hw2.trans hlen, hw3, hw4⟩⟩
  · rw [linspace_getD _ _ 0 (by norm_num)]
    norm_num
  · rw [linspace_getD _ _ 99 (by norm_num)]
    norm_num
  · intro a ha
    exact ⟨le_trans (min_le_left _ _) (listMin_le p a ha),
      le_trans (le_listMax p a ha) (le_max_left _ _)⟩
  · intro a ha
    exact ⟨le_trans (min_le_right _ _) (listMin_le q a ha),
      le_trans (le_listMax q a ha) (le_max_right _ _)⟩

theorem estimate_pdf_contract_witness :
    ([(0 : ℝ)] ≠ [] ∧ [(1 : ℝ)] ≠ [] ∧
      min (listMin [(0 : ℝ)]) (listMin [(1 : ℝ)]) =
        min (listMin [(0 : ℝ)]) (listMin [(1 : ℝ)]) ∧
      max (listMax [(0 : ℝ)]) (listMax [(1 : ℝ)]) =
        max (listMax [(0 : ℝ)]) (listMax [(1 : ℝ)]) ∧
      linspace (min (listMin [(0 : ℝ)]) (listMin [(1 : ℝ)]))
          (max (listMax [(0 : ℝ)]) (listMax [(1 : ℝ)])) 100 =
        linspace (min (listMin [(0 : ℝ)]) (listMin [(1 : ℝ)]))
          (max (listMax [(0 : ℝ)]) (listMax [(1 : ℝ)])) 100) ∧
    ((linspace (min (listMin [(0 : ℝ)]) (listMin [(1 : ℝ)]))
        (max (listMax [(0 : ℝ)]) (listMax [(1 : ℝ)])) 100).length = 100 ∧
      (∀ i, i < 100 →
        (linspace (min (listMin [(0 : ℝ)]) (listMin [(1 : ℝ)]))
            (max (listMax [(0 : ℝ)]) (listMax [(1 : ℝ)])) 100).getD i 0 =
          min (listMin [(0 : ℝ)]) (listMin [(1 : ℝ)]) +
            (max (listMax [(0 : ℝ)]) (listMax [(1 : ℝ)]) -
              min (listMin [(0 : ℝ)]) (listMin [(1 : ℝ)])) * i / 99) ∧
      (linspace (min (listMin [(0 : ℝ)]) (listMin [(1 : ℝ)]))
          (max (listMax [(0 : ℝ)]) (listMax [(1 : ℝ)])) 100).getD 0 0 =
        min (listMin [(0 : ℝ)]) (listMin [(1 : ℝ)]) ∧
      (linspace (min (listMin [(0 : ℝ)]) (listMin [(1 : ℝ)]))
          (max (listMax [(0 : ℝ)]) (listMax [(1 : ℝ)])) 100).getD 99 0 =
        max (listMax [(0 : ℝ)]) (listMax [(1 : ℝ)]) ∧
      (∀ a ∈ [(0 : ℝ)], min (listMin [(0 : ℝ)]) (listMin [(1 : ℝ)]) ≤ a ∧
        a ≤ max (listMax [(0 : ℝ)]) (listMax [(1 : ℝ)])) ∧
      (∀ a ∈ [(1 : ℝ)], min (listMin [(0 : ℝ)]) (listMin [(1 : ℝ)]) ≤ a ∧
        a ≤ max (listMax [(0 : ℝ)]) (listMax [(1 : ℝ)])) ∧
      (∃ v, _estimate_pdf [(0 : ℝ)]
          (linspace (min (listMin [(0 : ℝ)]) (listMin [(1 : ℝ)]))
            (max (listMax [(0 : ℝ)]) (listMax [(1 : ℝ)])) 100) = some v ∧
        v.length = 100 ∧ v.sum = 1 ∧ ∀ e ∈ v, 0 ≤ e) ∧
      (∃ w, _estimate_pdf [(1 : ℝ)]
          (linspace (min (listMin [(0 : ℝ)]) (listMin [(1 : ℝ)]))
            (max (listMax [(0 : ℝ)]) (listMax [(1 : ℝ)])) 100) = some w ∧
        w.length = 100 ∧ w.sum = 1 ∧ ∀ e ∈ w, 0 ≤ e)) :=
  ⟨⟨by simp, by simp, rfl, rfl, rfl⟩,
    estimate_pdf_contract [(0 : ℝ)] [(1 : ℝ)] (by simp) (by simp) _ _ _ rfl rfl
      rfl⟩

/-! ## Helper lemmas for the Hellinger distance -/

theorem zipWith_nonneg {f : ℝ → ℝ → ℝ} (hf : ∀ a b, 0 ≤ f a b) :
    ∀ (u v : List ℝ), ∀ e ∈ List.zipWith f u v, 0 ≤ e
  | [], _, e, he => by simp at he
  | _ :: _, [], e, he => by simp at he
  | a :: as, b :: bs, e, he => by
    rcases List.mem_cons.mp (by simpa using he) with rfl | he'
    · exact hf a b
    · exact zipWith_nonneg hf as bs e he'

theorem sum_eq_zero_iff_of_nonneg : ∀ (l : List ℝ), (∀ e ∈ l, 0 ≤ e) →
    (l.sum = 0 ↔ ∀ e ∈ l, e = 0)
  | [], _ => by simp
  | a :: as, h => by
    have ha := h a (by simp)
    have hrest : ∀ e ∈ as, 0 ≤ e := fun e he => h e (by simp [he])
    have ih := sum_eq_zero_iff_of_nonneg as hrest
    simp only [List.sum_cons]
    constructor
    · intro h0
      have hs : 0 ≤ as.sum := List.sum_nonneg hrest
      have ha0 : a = 0 := le_antisymm (by linarith) ha
      have hsum0 : as.sum = 0 := by linarith
      intro e he
      rcases List.mem_cons.mp he with rfl | he'
      · exact ha0
      · exact (ih.mp hsum0) e he'
    · intro hall
      have ha0 : a = 0 := hall a (by simp)
      have hs0 : as.sum = 0 := ih.mpr fun e he => hall e (by simp [he])
      rw [ha0, hs0, add_zero]

theorem zip_sqrt_sub_sq_sum : ∀ (u v : List ℝ), u.length = v.length →
    (∀ e ∈ u, 0 ≤ e) → (∀ e ∈ v, 0 ≤ e) →
    (List.zipWith (fun a b => (Real.sqrt a - Real.sqrt b) ^ 2) u v).sum =
      u.sum + v.sum -
        2 * (List.zipWith (fun a b => Real.sqrt a * Real.sqrt b) u v).sum
  | [], [], _, _, _ => by simp
  | [], _ :: _, h, _, _ => by simp at h
  | _ :: _, [], h, _, _ => by simp at h
  | a :: as, b :: bs, h, hu, hv => by
    have ha : (0 : ℝ) ≤ a := hu a (by simp)
    have hb : (0 : ℝ) ≤ b := hv b (by simp)
    have ih := zip_sqrt_sub_sq_sum as bs (by simpa using h)
      (fun e he => hu e (by simp [he])) (fun e he => hv e (by simp [he]))
    simp only [List.zipWith_cons_cons, List.sum_cons]
    rw [ih, sub_sq, Real.sq_sqrt ha, Real.sq_sqrt hb]
    ring

theorem zip_sq_zero_iff : ∀ (u v : List ℝ), u.length = v.length →
    (∀ e ∈ u, 0 ≤ e) → (∀ e ∈ v, 0 ≤ e) →
    ((∀ e ∈ List.zipWith (fun a b => (Real.sqrt a - Real.sqrt b) ^ 2) u v,
      e = 0) ↔ u = v)
  | [], [], _, _, _ => by simp
  | [], _ :: _, h, _, _ => by simp at h
  | _ :: _, [], h, _, _ => by simp at h
  | a :: as, b :: bs, h, hu, hv => by
    have ha : (0 : ℝ) ≤ a := hu a (by simp)
    have hb : (0 : ℝ) ≤ b := hv b (by simp)
    have ih := zip_sq_zero_iff as bs (by simpa using h)
      (fun e he => hu e (by simp [he])) (fun e he => hv e (by simp [he]))
    simp only [List.zipWith_cons_cons]
    constructor
    · intro hall
      have h0 : (Real.sqrt a - Real.sqrt b) ^ 2 = 0 := hall _ (by simp)
      have hsq : Real.sqrt a = Real.sqrt b :=
        sub_eq_zero.mp ((pow_eq_zero_iff (by norm_num)).mp h0)
      have hab : a = b := (Real.sqrt_inj ha hb).mp hsq
      have htail : as = bs := ih.mp fun e he => hall e (by simp [he])
      rw [hab, htail]
    · intro heq
      obtain ⟨rfl, rfl⟩ : a = b ∧ as = bs := by
        constructor <;> injection heq
      intro e he
      rcases List.mem_cons.mp he with rfl | he'
      · simp
      · exact ih.mpr rfl e he'

theorem zip_sq_self (u : List ℝ) :
    List.zipWith (fun a b => (Real.sqrt a - Real.sqrt b) ^ 2) u u =
      u.map fun _ => (0 : ℝ) := by
  induction u with
  | nil => simp
  | cons a as ih => simp [ih]

theorem hellingerDist_self (u : List ℝ) : hellingerDist u u = 0 := by
  unfold hellingerDist
  rw [zip_sq_self]
  have h0 : (u.map fun _ => (0 : ℝ)).sum = 0 := by
    induction u with
    | nil => rfl
    | cons a as ih => simpa using ih
  rw [h0, Real.sqrt_zero, zero_div]

theorem hellingerDist_bounds (u v : List ℝ) (hlen : u.length = v.length)
    (hu1 : u.sum = 1) (hv1 : v.sum = 1)
    (hu : ∀ e ∈ u, 0 ≤ e) (hv : ∀ e ∈ v, 0 ≤ e) :
    0 ≤ hellingerDist u v ∧ hellingerDist u v ≤ 1 ∧
      (hellingerDist u v = 0 ↔ u = v) := by
  have hSnn : 0 ≤ (List.zipWith
      (fun a b => (Real.sqrt a - Real.sqrt b) ^ 2) u v).sum :=
    List.sum_nonneg (zipWith_nonneg (fun a b => sq_nonneg _) u v)
  have hT : 0 ≤ (List.zipWith
      (fun a b => Real.sqrt a * Real.sqrt b) u v).sum :=
    List.sum_nonneg (zipWith_nonneg
      (fun a b => mul_nonneg (Real.sqrt_nonneg _) (Real.sqrt_nonneg _)) u v)
  have hS2 : (List.zipWith
      (fun a b => (Real.sqrt a - Real.sqrt b) ^ 2) u v).sum ≤ 2 := by
    rw [zip_sqrt_sub_sq_sum u v hlen hu hv, hu1, hv1]
    linarith
  have h2pos : (0 : ℝ) < Real.sqrt 2 := Real.sqrt_pos.mpr (by norm_num)
  refine ⟨div_nonneg (Real.sqrt_nonneg _) (le_of_lt h2pos), ?_, ?_⟩
  · calc hellingerDist u v
        ≤ Real.sqrt 2 / Real.sqrt 2 :=
          (div_le_div_right h2pos).mpr (Real.sqrt_le_sqrt hS2)
      _ = 1 := div_self (ne_of_gt h2pos)
  · constructor
    · intro h0
      have hs0 : Real.sqrt ((List.zipWith
          (fun a b => (Real.sqrt a - Real.sqrt b) ^ 2) u v).sum) = 0 := by
        rcases div_eq_zero_iff.mp h0 with h' | h'
        · exact h'
        · exact absurd h' (ne_of_gt h2pos)
      have hsum0 := (Real.sqrt_eq_zero hSnn).mp hs0
      exact (zip_sq_zero_iff u v hlen hu hv).mp
        ((sum_eq_zero_iff_of_nonneg _
          (zipWith_nonneg (fun a b => sq_nonneg _) u v)).mp hsum0)
    · intro huv
      rw [huv]
      exact hellingerDist_self v

theorem sum_map_ratCast (l : List ℚ) :
    (l.map fun a : ℚ => (a : ℝ)).sum = ((l.sum : ℚ) : ℝ) := by
  induction l with
  | nil => simp
  | cons a t ih => simp only [List.map_cons, List.sum_cons, ih, Rat.cast_add]

theorem pdfVectors_ok (p q : List ℚ) (hp : p ≠ []) (hq : q ≠ []) (d : Bool) :
    ∃ u v, pdfVectors p q d = .ok (some u, some v) ∧ u.length = v.length ∧
      u.sum = 1 ∧ v.sum = 1 ∧ (∀ e ∈ u, 0 ≤ e) ∧ (∀ e ∈ v, 0 ≤ e) := by
  cases d with
  | true =>
    have hmemx : ∀ a, a ∈ uniqueSorted (p ++ q) ↔ a ∈ p ∨ a ∈ q := fun a => by
      rw [uniqueSorted_mem]
      exact List.mem_append
    have hsorted := uniqueSorted_sorted_le (p ++ q)
    have hxne : uniqueSorted (p ++ q) ≠ [] := by
      obtain ⟨s, hs⟩ := List.exists_mem_of_ne_nil p hp
      exact List.ne_nil_of_mem ((hmemx s).mpr (Or.inl hs))
    obtain ⟨t, ts, hxeq⟩ := List.exists_cons_of_ne_nil hxne
    rw [hxeq] at hsorted
    obtain ⟨_, v, hv1, hv2, hv3, hv4⟩ :=
      pmf_some p t ts hsorted (fun s hs => hxeq ▸ (hmemx s).mpr (Or.inl hs)) hp
    obtain ⟨_, w, hw1, hw2, hw3, hw4⟩ :=
      pmf_some q t ts hsorted (fun s hs => hxeq ▸ (hmemx s).mpr (Or.inr hs)) hq
    refine ⟨v.map fun a : ℚ => (a : ℝ), w.map fun a : ℚ => (a : ℝ), ?_, ?_, ?_, ?_,
      ?_, ?_⟩
    · simp [pdfVectors, pmfF, hxeq, hv1, hw1]
    · simp [hv4, hw4]
    · rw [sum_map_ratCast, hv2]
      norm_num
    · rw [sum_map_ratCast, hw2]
      norm_num
    · intro e he
      obtain ⟨a, ha, rfl⟩ := List.mem_map.mp he
      exact_mod_cast hv3 a ha
    · intro e he
      obtain ⟨a, ha, rfl⟩ := List.mem_map.mp he
      exact_mod_cast hw3 a ha
  | false =>
    have hpr : (p.map fun s : ℚ => (s : ℝ)) ≠ [] :=
      fun h => hp (List.map_eq_nil_iff.mp h)
    have hqr : (q.map fun s : ℚ => (s : ℝ)) ≠ [] :=
      fun h => hq (List.map_eq_nil_iff.mp h)
    have hxne : linspace
        (min (listMin (p.map fun s : ℚ => (s : ℝ)))
          (listMin (q.map fun s : ℚ => (s : ℝ))))
        (max (listMax (p.map fun s : ℚ => (s : ℝ)))
          (listMax (q.map fun s : ℚ => (s : ℝ)))) 100 ≠ [] := by
      intro h
      have := linspace_length
        (min (listMin (p.map fun s : ℚ => (s : ℝ)))
          (listMin (q.map fun s : ℚ => (s : ℝ))))
        (max (listMax (p.map fun s : ℚ => (s : ℝ)))
          (listMax (q.map fun s : ℚ => (s : ℝ)))) 100
      rw [h] at this
      simp at this
    obtain ⟨v, hv1, hv2, hv3, hv4⟩ :=
      estimate_pdf_some (p.map fun s : ℚ => (s : ℝ)) _ hpr hxne
    obtain ⟨w, hw1, hw2, hw3, hw4⟩ :=
      estimate_pdf_some (q.map fun s : ℚ => (s : ℝ)) _ hqr hxne
    refine ⟨v, w, ?_, hv2.trans hw2.symm, hv3, hw3, hv4, hw4⟩
    simp [pdfVectors, hp, hq, hv1, hw1]

/-! ## Claim C7 -/

/-- C7: for non-empty collections and either flag, the Hellinger branch
returns (1 / sqrt 2) times the Euclidean norm of the pointwise difference of
the square roots of the two index-aligned probability vectors; the value lies
in [0, 1] and is 0 exactly when the two vectors are identical. -/
theorem hellinger_contract (p q : List ℚ) (hp : p ≠ []) (hq : q ≠ [])
    (d : Bool) :
    ∃ u v, pdfVectors p q d = .ok (some u, some v) ∧
      distance_pior_posterior p q "Hellinger" d =
        .ok (.num (hellingerDist u v)) ∧
      0 ≤ hellingerDist u v ∧ hellingerDist u v ≤ 1 ∧
      (hellingerDist u v = 0 ↔ u = v) := by
  obtain ⟨u, v, hok, hlen, hu1, hv1, hu, hv⟩ := pdfVectors_ok p q hp hq d
  obtain ⟨h0, h1, hiff⟩ := hellingerDist_bounds u v hlen hu1 hv1 hu hv
  refine ⟨u, v, hok, ?_, h0, h1, hiff⟩
  simp [distance_pior_posterior, hok, applyPair]

theorem hellinger_contract_witness :
    ([(0 : ℚ)] ≠ [] ∧ [(1 : ℚ)] ≠ []) ∧
    (∃ u v, pdfVectors [(0 : ℚ)] [(1 : ℚ)] true = .ok (some u, some v) ∧
      distance_pior_posterior [(0 : ℚ)] [(1 : ℚ)] "Hellinger" true =
        .ok (.num (hellingerDist u v)) ∧
      0 ≤ hellingerDist u v ∧ hellingerDist u v ≤ 1 ∧
      (hellingerDist u v = 0 ↔ u = v)) :=
  ⟨⟨by decide, by decide⟩,
    hellinger_contract [(0 : ℚ)] [(1 : ℚ)] (by decide) (by decide) true⟩

/-! ## Helper lemmas: symmetry of every branch -/

theorem uniqueSorted_append_comm (p q : List ℚ) :
    uniqueSorted (p ++ q) = uniqueSorted (q ++ p) := by
  unfold uniqueSorted
  rw [List.toFinset_append, List.toFinset_append, Finset.union_comm]

theorem hellingerDist_comm (u v : List ℝ) :
    hellingerDist u v = hellingerDist v u := by
  unfold hellingerDist
  rw [List.zipWith_comm_of_comm _ (fun x y : ℝ => by ring) u v]

theorem jensenshannon_comm (u v : List ℝ) :
    jensenshannon u v = jensenshannon v u := by
  simp only [jensenshannon]
  rw [List.zipWith_comm_of_comm (fun a b : ℝ => (a + b) / 2)
    (fun x y : ℝ => by ring) u v]
  congr 1
  ring

theorem minOverlap_comm (u v : List ℝ) : minOverlap u v = minOverlap v u := by
  unfold minOverlap
  rw [List.zipWith_comm_of_comm min min_comm u v]

theorem ks_2samp_comm (p q : List ℚ) : ks_2samp p q = ks_2samp q p := by
  unfold ks_2samp
  have hor : (p = [] ∨ q = []) ↔ (q = [] ∨ p = []) := Or.comm
  by_cases h : p = [] ∨ q = []
  · rw [if_pos h, if_pos (hor.mp h)]
  · rw [if_neg h, if_neg fun hh => h (hor.mpr hh), uniqueSorted_append_comm]
    have hmap : ((uniqueSorted (q ++ p)).map fun t => |ecdfQ p t - ecdfQ q t|) =
        (uniqueSorted (q ++ p)).map fun t => |ecdfQ q t - ecdfQ p t| := by
      congr 1
      funext t
      rw [abs_sub_comm]
    rw [hmap]

theorem pdfVectors_swap (p q : List ℚ) (d : Bool) :
    pdfVectors q p d = Except.map Prod.swap (pdfVectors p q d) := by
  cases d with
  | true => simp [pdfVectors, Except.map, uniqueSorted_append_comm q p]
  | false =>
    by_cases hp : p = []
    · simp [pdfVectors, hp, Except.map]
    · by_cases hq : q = []
      · simp [pdfVectors, hq, Except.map]
      · simp [pdfVectors, hp, hq, Except.map, min_comm, max_comm]

theorem applyPair_comm (f : List ℝ → List ℝ → ℝ)
    (hf : ∀ u v, f u v = f v u) (pu qu : Option (List ℝ)) :
    applyPair f pu qu = applyPair f qu pu := by
  cases pu <;> cases qu <;> simp [applyPair, hf]

/-! ## Claim C8 -/

/-- C8: the distance function is symmetric in its two sample collections for
each of the four supported methods and either value of the discrete flag. -/
theorem distance_symmetric (p q : List ℚ) (hp : p ≠ []) (hq : q ≠ [])
    (method : String)
    (hm : method = "KS" ∨ method = "Hellinger" ∨ method = "JS" ∨
      method = "min") (d : Bool) :
    distance_pior_posterior p q method d =
      distance_pior_posterior q p method d := by
  have hswap := pdfVectors_swap p q d
  rcases hm with rfl | rfl | rfl | rfl
  · simp [distance_pior_posterior, ks_2samp_comm p q]
  all_goals
    cases hpd : pdfVectors p q d with
    | error e =>
      rw [hpd] at hswap
      simp [distance_pior_posterior, hpd, hswap, Except.map]
    | ok pr =>
      obtain ⟨pu, qu⟩ := pr
      rw [hpd] at hswap
      simp only [Except.map] at hswap
      simp [distance_pior_posterior, hpd, hswap,
        applyPair_comm hellingerDist hellingerDist_comm,
        applyPair_comm jensenshannon jensenshannon_comm,
        applyPair_comm minOverlap minOverlap_comm]

theorem distance_symmetric_witness :
    ([(0 : ℚ), 2] ≠ [] ∧ [(1 : ℚ)] ≠ [] ∧
      ("min" = "KS" ∨ "min" = "Hellinger" ∨ "min" = "JS" ∨ "min" = "min")) ∧
    distance_pior_posterior [(0 : ℚ), 2] [(1 : ℚ)] "min" false =
      distance_pior_posterior [(1 : ℚ)] [(0 : ℚ), 2] "min" false :=
  ⟨⟨by decide, by decide, by decide⟩,
    distance_symmetric [(0 : ℚ), 2] [(1 : ℚ)] (by decide) (by decide) "min"
      (by decide) false⟩
